import Mathlib

/-!
Verification development for the conversation-history condensation engine of
the agent SDK: the event model, the view builder (`View.from_events`, both the
enforcer-based implementation in `context/view/view.py` and the legacy
implementation in `context/view.py`), the three property enforcers
(`ToolCallMatchingProperty`, `BatchAtomicityProperty`,
`ToolLoopAtomicityProperty`) and the rolling LLM-summarizing condenser
(`LLMSummarizingCondenser`).

Machine integers are modelled as `Nat`/`Int`; Python list indexing, slicing
and `list.insert` are modelled with their exact clamping semantics.  Event
ids are modelled as `Nat`; the `uuid4` id generator of the source is modelled
by a generator that returns an id strictly larger than every id in the log,
reflecting the global-uniqueness guarantee of the source ids.
-/

namespace Engine

abbrev EventID := Nat
abbrev ToolCallID := Nat
abbrev LLMResponseID := Nat

/-- Which concrete subclass of `ObservationBaseEvent` an observation-like
event is: a plain `ObservationEvent`, a `UserRejectObservation` or an
`AgentErrorEvent`.  All three are subclasses of `ObservationBaseEvent` in the
source and are treated uniformly by every `isinstance(e, ObservationBaseEvent)`
check. -/
inductive ObsKind where
  | tool
  | userReject
  | agentError
deriving Repr, DecidableEq

/-- The event taxonomy from `openhands/sdk/event`.  Fields not consulted by
the view builder, the enforcers or the condenser (message text, tool names,
structured payloads) are omitted; `thinkingBlocks` is abstracted to whether
the list of thinking blocks of an `ActionEvent` is non-empty, which is the
only way the source consults it (`event.thinking_blocks` truthiness). -/
inductive Event where
  | message (id : EventID) (tag : Nat)
  | systemPrompt (id : EventID)
  | action (id : EventID) (llmResponseId : LLMResponseID) (toolCallId : ToolCallID)
      (hasThinking : Bool)
  | observation (id : EventID) (toolCallId : ToolCallID) (kind : ObsKind)
  | condensation (id : EventID) (forgottenEventIds : List EventID)
      (summary : Option String) (summaryOffset : Option Int)
  | condensationRequest (id : EventID)
  | condensationSummary (id : EventID) (summary : String)
deriving Repr, DecidableEq

namespace Event

def id : Event → EventID
  | .message i _ => i
  | .systemPrompt i => i
  | .action i _ _ _ => i
  | .observation i _ _ => i
  | .condensation i _ _ _ => i
  | .condensationRequest i => i
  | .condensationSummary i _ => i

/-- `isinstance(event, ActionEvent)`. -/
def isAction : Event → Bool
  | .action _ _ _ _ => true
  | _ => false

/-- `isinstance(event, ObservationBaseEvent)`: covers `ObservationEvent`,
`UserRejectObservation` and `AgentErrorEvent`. -/
def isObservation : Event → Bool
  | .observation _ _ _ => true
  | _ => false

/-- `isinstance(event, Condensation)`. -/
def isCondensation : Event → Bool
  | .condensation _ _ _ _ => true
  | _ => false

/-- `isinstance(event, CondensationRequest)`. -/
def isCondensationRequest : Event → Bool
  | .condensationRequest _ => true
  | _ => false

/-- `isinstance(event, CondensationSummaryEvent)`. -/
def isCondensationSummary : Event → Bool
  | .condensationSummary _ _ => true
  | _ => false

/-- `isinstance(event, LLMConvertibleEvent)`: every variant except the two
pure condensation markers (`Condensation`, `CondensationRequest`). -/
def isLLMConvertible : Event → Bool
  | .condensation _ _ _ _ => false
  | .condensationRequest _ => false
  | _ => true

end Event

/-- Models the `uuid4` id assigned to a synthetic event: an id distinct from
the id of every event in the log (the source relies on uuid uniqueness). -/
def freshId (events : List Event) : EventID :=
  (events.map Event.id).foldr max 0 + 1

/-- Python `list.insert(i, x)` index resolution: a negative index counts from
the end (floored at 0) and a positive index is capped at the length. -/
def pyInsertPos (i : Int) (n : Nat) : Nat :=
  if i < 0 then ((n : Int) + i).toNat else min i.toNat n

/-- Python `l[i]` for a single integer index: `none` models an `IndexError`. -/
def pyGetItem {α : Type} (l : List α) (i : Int) : Option α :=
  let j := if i < 0 then (l.length : Int) + i else i
  if 0 ≤ j ∧ j < (l.length : Int) then l.get? j.toNat else none

/-! ### Forgotten ids, kept events, summary insertion
(`View.from_events`, first half — identical in both implementations) -/

/-- The running forgotten-id set of `View.from_events`: the
`forgotten_event_ids` of every `Condensation` plus the `Condensation`'s own
id, plus the id of every `CondensationRequest`. -/
def forgottenIds (events : List Event) : List EventID :=
  events.foldl
    (fun acc e =>
      match e with
      | .condensation i forgotten _ _ => (acc ++ forgotten) ++ [i]
      | .condensationRequest i => acc ++ [i]
      | _ => acc)
    []

/-- The `condensations` field: all `Condensation` events in log order. -/
def condensationsOf (events : List Event) : List Event :=
  events.filter Event.isCondensation

/-- `kept_events`: events that are not forgotten and are LLM-convertible. -/
def keptEvents (events : List Event) : List Event :=
  events.filter fun e => !decide (e.id ∈ forgottenIds events) && e.isLLMConvertible

/-- The reverse walk over `events` that finds the most recent `Condensation`
carrying both a non-`None` `summary` and a non-`None` `summary_offset`;
`Condensation`s lacking either are skipped, as in the source loop.  Expects
the already-reversed list. -/
def findSummaryRev : List Event → Option (String × Int)
  | [] => none
  | .condensation _ _ (some s) (some o) :: _ => some (s, o)
  | _ :: rest => findSummaryRev rest

def findSummary (events : List Event) : Option (String × Int) :=
  findSummaryRev events.reverse

/-- The synthetic `CondensationSummaryEvent(summary=summary)` built by
`View.from_events`; its autogenerated uuid is modelled by `freshId`. -/
def mkSummaryEvent (events : List Event) (s : String) : Event :=
  .condensationSummary (freshId events) s

/-- `kept_events` after `kept_events.insert(summary_offset, summary_event)`,
with Python `list.insert` semantics. -/
def keptWithSummary (events : List Event) : List Event :=
  let kept := keptEvents events
  match findSummary events with
  | none => kept
  | some (s, o) => kept.insertIdx (pyInsertPos o kept.length) (mkSummaryEvent events s)

/-- The reverse walk that decides `unhandled_condensation_request`: a
`CondensationRequest` strictly later than every `Condensation`.  Expects the
already-reversed list. -/
def unhandledRequestRev : List Event → Bool
  | [] => false
  | e :: rest =>
    if e.isCondensation then false
    else if e.isCondensationRequest then true
    else unhandledRequestRev rest

def unhandledRequest (events : List Event) : Bool :=
  unhandledRequestRev events.reverse

/-! ### ToolCallMatchingProperty -/

/-- `_extract_action_tool_call_ids`. -/
def actionToolCallIds (events : List Event) : List ToolCallID :=
  events.filterMap fun e =>
    match e with
    | .action _ _ tc _ => some tc
    | _ => none

/-- `_extract_observation_tool_call_ids`. -/
def obsToolCallIds (events : List Event) : List ToolCallID :=
  events.filterMap fun e =>
    match e with
    | .observation _ tc _ => some tc
    | _ => none

/-- `ToolCallMatchingProperty.enforce`: ids of `ActionEvent`s without a
matching observation in the view and of `ObservationBaseEvent`s without a
matching action in the view.  The result is read as a set (membership and
emptiness only). -/
def tcmEnforce (view : List Event) (_all : List Event) : List EventID :=
  let aIds := actionToolCallIds view
  let oIds := obsToolCallIds view
  view.filterMap fun e =>
    match e with
    | .action i _ tc _ => if tc ∈ oIds then none else some i
    | .observation i tc _ => if tc ∈ aIds then none else some i
    | _ => none

/-- `ToolCallMatchingProperty.manipulation_indices`: every boundary. -/
def tcmManip (view : List Event) : Finset Nat :=
  Finset.range (view.length + 1)

/-! ### BatchAtomicityProperty -/

/-- The keys of the `_build_batches` dict, in insertion order (order of the
first `ActionEvent` with each `llm_response_id`). -/
def batchRespIds (events : List Event) : List LLMResponseID :=
  events.foldl
    (fun acc e =>
      match e with
      | .action _ rid _ _ => if rid ∈ acc then acc else acc ++ [rid]
      | _ => acc)
    []

/-- The value of the `_build_batches` dict at one key: ids of the
`ActionEvent`s with that `llm_response_id`, in log order. -/
def batchActionIds (rid : LLMResponseID) (events : List Event) : List EventID :=
  events.filterMap fun e =>
    match e with
    | .action i r _ _ => if r = rid then some i else none
    | _ => none

/-- `BatchAtomicityProperty.enforce`: for every batch of `all_events` that is
partially present in the view, the in-view members. -/
def batchEnforce (view : List Event) (all : List Event) : List EventID :=
  (batchRespIds all).flatMap fun rid =>
    let allIds := batchActionIds rid all
    let viewIds := batchActionIds rid view
    if viewIds ≠ [] ∧ viewIds.length < allIds.length then viewIds else []

/-- `_build_event_id_to_index` lookup: a dict comprehension over `enumerate`,
so a duplicated id maps to its last index; an id absent from the list (which
would raise a `KeyError` at the use sites, but never occurs there) is mapped
to 0. -/
def eventIdToIndex (events : List Event) (eid : EventID) : Nat :=
  events.enum.foldl (fun acc p => if p.2.id = eid then p.1 else acc) 0

/-- Python `min(indices)` over a non-empty list of indices (0 if empty, a
case that raises in the source and never occurs at the call sites). -/
def listMin : List Nat → Nat
  | [] => 0
  | x :: xs => xs.foldr min x

/-- Python `max(indices)` over a list of naturals. -/
def listMax (l : List Nat) : Nat :=
  l.foldr max 0

/-- The `(min_idx, max_idx)` extents of multi-action batches of the view
(`len(action_ids) > 1`), used by `BatchAtomicityProperty.manipulation_indices`. -/
def batchAtomicRanges (view : List Event) : List (Nat × Nat) :=
  (batchRespIds view).filterMap fun rid =>
    let ids := batchActionIds rid view
    if ids.length > 1 then
      let idxs := ids.map (eventIdToIndex view)
      some (listMin idxs, listMax idxs)
    else none

/-- Translate a list of atomic `(min_idx, max_idx)` ranges into the admissible
manipulation indices: all boundaries `0..=n` except those in
`range(min_idx + 1, max_idx + 1)` for each range.  This is the discard loop of
`BatchAtomicityProperty.manipulation_indices`, and models the base-class
helper `_build_manipulation_indices_from_atomic_ranges` (defined in a
`properties/base.py` not present in the tree; per the spec it excludes every
position strictly inside any range, exactly as the batch-atomicity discard). -/
def manipFromAtomicRanges (ranges : List (Nat × Nat)) (n : Nat) : Finset Nat :=
  (Finset.range (n + 1)).filter fun i =>
    ranges.all fun r => !(decide (r.1 + 1 ≤ i) && decide (i ≤ r.2))

/-- `BatchAtomicityProperty.manipulation_indices`. -/
def batchManip (view : List Event) : Finset Nat :=
  manipFromAtomicRanges (batchAtomicRanges view) view.length

/-! ### ToolLoopAtomicityProperty -/

/-- One entry of `_build_batch_ranges`: `(min_idx, max_idx, has_thinking,
action_ids)`. -/
structure BatchRange where
  minIdx : Nat
  maxIdx : Nat
  hasThinking : Bool
  actionIds : List EventID
deriving Repr, DecidableEq

/-- Stable insertion of a batch range into a min-sorted list (Python
`list.sort(key=lambda x: x[0])` is stable). -/
def insertByMin (x : BatchRange) : List BatchRange → List BatchRange
  | [] => [x]
  | y :: ys => if x.minIdx ≤ y.minIdx then x :: y :: ys else y :: insertByMin x ys

/-- Stable sort by `min_idx`, processing from the right so that the relative
order of equal keys is preserved. -/
def sortByMin (l : List BatchRange) : List BatchRange :=
  l.foldr insertByMin []

/-- `_build_batch_ranges`: batch extents (via the id-to-index map, as in the
base-class `_get_batch_extent` helper) plus whether any action of the batch
has thinking blocks, sorted by `min_idx`. -/
def buildBatchRanges (events : List Event) : List BatchRange :=
  sortByMin <| (batchRespIds events).map fun rid =>
    let ids := batchActionIds rid events
    let idxs := ids.map (eventIdToIndex events)
    { minIdx := listMin idxs
      maxIdx := listMax idxs
      hasThinking := ids.any fun aid =>
        match events.get? (eventIdToIndex events aid) with
        | some (.action _ _ _ th) => th
        | _ => false
      actionIds := ids }

/-- Whether every event at an index in `range(a, b)` is an `ActionEvent` or
an `ObservationBaseEvent` (the inter-batch gap test of
`_scan_tool_loop_extent`).  The indices at the use sites are always in
bounds; an out-of-bounds probe counts as `true`, matching the empty loop
body the source would execute. -/
def allActionObsBetween (events : List Event) (a b : Nat) : Bool :=
  (List.range' a (b - a)).all fun i =>
    match events.get? i with
    | some e => e.isAction || e.isObservation
    | none => true

/-- The forward absorption loop of `_scan_tool_loop_extent`: keep absorbing
the next batch while only actions/observations separate it from the current
loop tail.  Returns the final `loop_end` and the unconsumed batch ranges. -/
def absorbBatches (events : List Event) (loopEnd : Nat) :
    List BatchRange → Nat × List BatchRange
  | [] => (loopEnd, [])
  | r :: rest =>
    if allActionObsBetween events (loopEnd + 1) r.minIdx then
      absorbBatches events r.maxIdx rest
    else (loopEnd, r :: rest)

/-- The trailing-observation scan of `_scan_tool_loop_extent`: extend
`loop_end` past consecutive `ObservationBaseEvent`s; stop at the first
event that is not one (or at the end of the list). -/
def extendObsAux (events : List Event) : Nat → Nat → Nat
  | 0, le => le
  | fuel + 1, le =>
    match events.get? (le + 1) with
    | some e => if e.isObservation then extendObsAux events fuel (le + 1) else le
    | none => le

def extendObs (events : List Event) (le : Nat) : Nat :=
  extendObsAux events events.length le

/-- The walk of `_identify_tool_loops` over the sorted batch ranges: each
thinking batch opens a loop whose extent is computed by
`_scan_tool_loop_extent`; non-thinking batches are skipped.  Structural
recursion on a fuel that starts at the number of batch ranges; the
absorption step consumes a sublist of the remaining ranges
(`absorbBatches_sublist`), so the fuel never runs out at the entry point. -/
def identifyLoopsAux (events : List Event) : Nat → List BatchRange → List (Nat × Nat)
  | _, [] => []
  | 0, _ :: _ => []
  | fuel + 1, r :: rest =>
    if r.hasThinking then
      let p := absorbBatches events r.maxIdx rest
      (r.minIdx, extendObs events p.1) :: identifyLoopsAux events fuel p.2
    else identifyLoopsAux events fuel rest

/-- The `(loop_start, loop_end)` event-index ranges of all tool loops. -/
def identifyLoopRanges (events : List Event) : List (Nat × Nat) :=
  identifyLoopsAux events (buildBatchRanges events).length (buildBatchRanges events)

/-- The event ids inside one loop range: `events[idx].id` for
`idx in range(loop_start, loop_end + 1)`. -/
def loopEventIds (events : List Event) (r : Nat × Nat) : List EventID :=
  ((List.range' r.1 (r.2 + 1 - r.1)).filterMap (events.get? ·)).map Event.id

/-- `ToolLoopAtomicityProperty.enforce`: loops are identified over
`all_events`; a loop partially present in the view has its in-view subset
removed. -/
def toolLoopEnforce (view : List Event) (all : List Event) : List EventID :=
  let viewIds := view.map Event.id
  (identifyLoopRanges all).flatMap fun r =>
    let ids := loopEventIds all r
    let inView := ids.filter fun i => decide (i ∈ viewIds)
    if inView ≠ [] ∧ inView.length < ids.length then inView else []

/-- `ToolLoopAtomicityProperty.manipulation_indices`: loop ranges are
computed over the view itself and every position strictly inside a range is
excluded. -/
def loopManip (view : List Event) : Finset Nat :=
  manipFromAtomicRanges (identifyLoopRanges view) view.length

/-! ### The property-enforcement fixpoint of `View.from_events` -/

/-- One pass over the property list `[ToolCallMatching, BatchAtomicity,
ToolLoopAtomicity]`: the drop set of the first property whose `enforce`
returns a non-empty set (the source breaks out of the inner loop there), or
`[]` when all three are empty. -/
def enforceStep (view : List Event) (all : List Event) : List EventID :=
  let r1 := tcmEnforce view all
  if r1 ≠ [] then r1
  else
    let r2 := batchEnforce view all
    if r2 ≠ [] then r2
    else toolLoopEnforce view all

/-- The enforcement iteration with its safety cap: up to `fuel` (10 in the
source) iterations, each removing the first non-empty drop set; when the cap
is exhausted the view is returned in its last state (with a warning in the
source). -/
def enforceLoop : Nat → List Event → List Event → List Event
  | 0, view, _ => view
  | fuel + 1, view, all =>
    let r := enforceStep view all
    if r = [] then view
    else enforceLoop fuel (view.filter fun e => !decide (e.id ∈ r)) all

/-- Whether the enforcement loop reaches a pass with no removals within the
iteration cap (i.e. the source exits without the max-iterations warning). -/
def enforceConvergesFuel : Nat → List Event → List Event → Bool
  | 0, _, _ => false
  | fuel + 1, view, all =>
    let r := enforceStep view all
    if r = [] then true
    else enforceConvergesFuel fuel (view.filter fun e => !decide (e.id ∈ r)) all

/-- The iteration cap of `View.from_events`. -/
def maxIterations : Nat := 10

/-- `View`: the output of `View.from_events` (enforcer-based implementation),
with the fields consulted by the condenser and the callers. -/
structure View where
  events : List Event
  unhandledCondensationRequest : Bool
  condensations : List Event
  manipulationIndices : Finset Nat
deriving DecidableEq

/-- Whether derivation of the view from this event log reaches the
enforcement fixpoint within the iteration cap. -/
def enforceConverges (events : List Event) : Bool :=
  enforceConvergesFuel maxIterations (keptWithSummary events) events

/-- `View.from_events` (the enforcer-based implementation in
`context/view/view.py`): forgotten-id semantics, summary insertion,
unhandled-request detection, property enforcement to a fixpoint (cap 10) and
the intersection of the three manipulation-index sets (`{0}` for an empty
view). -/
def View.from_events (events : List Event) : View :=
  let viewEvents := enforceLoop maxIterations (keptWithSummary events) events
  { events := viewEvents
    unhandledCondensationRequest := unhandledRequest events
    condensations := condensationsOf events
    manipulationIndices :=
      if viewEvents = [] then {0}
      else tcmManip viewEvents ∩ batchManip viewEvents ∩ loopManip viewEvents }

/-- `View.most_recent_condensation`. -/
def View.mostRecentCondensation (v : View) : Option Event :=
  v.condensations.getLast?

/-- `View.summary_event_index`: the most recent condensation's
`summary_offset` when both its `summary` and `summary_offset` are set. -/
def View.summaryEventIndex (v : View) : Option Int :=
  match v.mostRecentCondensation with
  | some (.condensation _ _ (some _) (some o)) => some o
  | _ => none

/-- `View.summary_event`: reads `self.events[self.summary_event_index]` and
returns the event when it is a `CondensationSummaryEvent`, else `None`.  The
`Except` error models the `IndexError` Python raises when the stored index is
out of bounds for the events list. -/
def View.summaryEventChecked (v : View) : Except String (Option Event) :=
  match v.summaryEventIndex with
  | none => .ok none
  | some o =>
    match pyGetItem v.events o with
    | some e => .ok (if e.isCondensationSummary then some e else none)
    | none => .error "IndexError"

/-! ### LLMSummarizingCondenser -/

structure LLMSummarizingCondenser where
  maxSize : Nat
  keepFirst : Nat
deriving Repr, DecidableEq

/-- Construction of an `LLMSummarizingCondenser`, with the pydantic field
constraint `max_size > 0` and the `validate_keep_first_vs_max_size` model
validator: `max_size // 2 - keep_first - 1 <= 0` fails construction.  The
arithmetic is Python int arithmetic, so the check is carried out in `Int`. -/
def mkLLMSummarizingCondenser (maxSize keepFirst : Nat) :
    Except String LLMSummarizingCondenser :=
  if maxSize = 0 then .error "max_size must be greater than 0"
  else if (maxSize : Int) / 2 - (keepFirst : Int) - 1 ≤ 0 then
    .error "keep_first must be less than max_size // 2 to leave room for condensation"
  else .ok { maxSize := maxSize, keepFirst := keepFirst }

/-- `LLMSummarizingCondenser.should_condense`, for an LLM that does not
expose a context window: the token-aware branch (`compute_token_budget` in
the condenser base class, a file not present in the tree) returns `None`
there per the spec, so the check falls back to the unhandled-request flag and
the event count. -/
def LLMSummarizingCondenser.shouldCondense (c : LLMSummarizingCondenser)
    (v : View) : Bool :=
  v.unhandledCondensationRequest || decide (v.events.length > c.maxSize)

/-- The fields of the `Condensation` event returned by `get_condensation`. -/
structure CondensationResult where
  forgottenEventIds : List EventID
  summary : Option String
  summaryOffset : Int
  llmResponseId : LLMResponseID
deriving Repr, DecidableEq

/-- `LLMSummarizingCondenser.get_condensation`, for an LLM without a context
window (the token-aware `max_tail_within_budget` branch is skipped, as in the
source when `compute_token_budget` returns `None`).  After computing
`events_from_tail` the source unconditionally reads `view.summary_event` to
extract the previous summary text for the prompt; that property access can
raise `IndexError` (see `View.summaryEventChecked`), which the `Except`
result propagates — the extracted text itself only feeds the prompt and is
absorbed into the abstracted summarizer call, whose returned summary text
and response id are taken as arguments.  Python slice and `max` arithmetic
are mirrored: `view[:k]` is `take k`, `view[k:-t]` for `t > 0` is
`drop k (take (len - t))`, and `max(0, target - len(head) - 1)` is
saturating `Nat` subtraction. -/
def LLMSummarizingCondenser.getCondensation (c : LLMSummarizingCondenser)
    (v : View) (summaryFromLLM : String) (respId : LLMResponseID) :
    Except String CondensationResult :=
  let head := v.events.take c.keepFirst
  let targetSize :=
    if v.unhandledCondensationRequest then v.events.length / 2 else c.maxSize / 2
  let eventsFromTail := targetSize - head.length - 1
  match v.summaryEventChecked with
  | .error err => .error err
  | .ok _ =>
    let forgottenEvents :=
      if eventsFromTail > 0 then
        (v.events.take (v.events.length - eventsFromTail)).drop c.keepFirst
      else v.events.drop c.keepFirst
    .ok
      { forgottenEventIds := forgottenEvents.map Event.id
        summary := some summaryFromLLM
        summaryOffset := (c.keepFirst : Int)
        llmResponseId := respId }

/-! ### The legacy `View.from_events` (`context/view.py`) -/

/-- Legacy `View._enforce_batch_atomicity`: one-shot — every batch with a
member in the forgotten set has all its members added to the set. -/
def legacyBatchAtomicity (events : List Event) (forgotten : List EventID) :
    List EventID :=
  forgotten ++ (batchRespIds events).flatMap fun rid =>
    let ids := batchActionIds rid events
    if ids.any (fun i => decide (i ∈ forgotten)) then ids else []

/-- Legacy `View._ensure_thinking_block_preservation`: when some
`ActionEvent`s are kept but none of the kept ones has thinking blocks, the
most recent forgotten action with thinking blocks is un-forgotten together
with its whole batch and the observations matching the batch's tool calls. -/
def legacyThinkingPreservation (events : List Event) (forgotten : List EventID) :
    List EventID :=
  let keptActions := events.filter fun e => e.isAction && !decide (e.id ∈ forgotten)
  if keptActions = [] then forgotten
  else
    let withThinking := events.filter fun e =>
      match e with
      | .action _ _ _ th => th
      | _ => false
    if withThinking = [] then forgotten
    else if withThinking.any (fun e => !decide (e.id ∈ forgotten)) then forgotten
    else
      let forgottenWithThinking := withThinking.filter fun e => decide (e.id ∈ forgotten)
      match forgottenWithThinking.getLast? with
      | none => forgotten
      | some keep =>
        let rid :=
          match keep with
          | .action _ r _ _ => r
          | _ => 0
        let batchIds := batchActionIds rid events
        let tcsInBatch := events.filterMap fun e =>
          match e with
          | .action _ r tc _ => if r = rid then some tc else none
          | _ => none
        let obsIds := events.filterMap fun e =>
          match e with
          | .observation i tc _ => if tc ∈ tcsInBatch then some i else none
          | _ => none
        forgotten.filter fun i => !decide (i ∈ batchIds ++ obsIds)

/-- Legacy `View._should_keep_event`. -/
def legacyShouldKeep (aIds oIds : List ToolCallID) (e : Event) : Bool :=
  match e with
  | .observation _ tc _ => decide (tc ∈ aIds)
  | .action _ _ tc _ => decide (tc ∈ oIds)
  | _ => true

/-- Legacy `View.filter_unmatched_tool_calls`. -/
def legacyFilterUnmatched (events : List Event) : List Event :=
  let aIds := actionToolCallIds events
  let oIds := obsToolCallIds events
  events.filter (legacyShouldKeep aIds oIds)

/-- The events list of the legacy `View.from_events` (`context/view.py`):
forgotten ids, one-shot batch atomicity over the forgotten set,
thinking-block preservation, kept-event selection, summary insertion, then
unmatched-tool-call filtering. -/
def legacyViewEvents (events : List Event) : List Event :=
  let f2 := legacyThinkingPreservation events
    (legacyBatchAtomicity events (forgottenIds events))
  let kept := events.filter fun e => !decide (e.id ∈ f2) && e.isLLMConvertible
  let kws :=
    match findSummary events with
    | none => kept
    | some (s, o) => kept.insertIdx (pyInsertPos o kept.length) (mkSummaryEvent events s)
  legacyFilterUnmatched kws

/-! ### Definitions supporting the proofs and the concrete inputs -/

/-- The step function folded by `forgottenIds`. -/
def forgottenStep (acc : List EventID) (e : Event) : List EventID :=
  match e with
  | .condensation i forgotten _ _ => (acc ++ forgotten) ++ [i]
  | .condensationRequest i => acc ++ [i]
  | _ => acc

/-- The `tool_call_id` attribute shared by `ActionEvent` and
`ObservationBaseEvent`. -/
def Event.toolCallIdOf : Event → Option ToolCallID
  | .action _ _ tc _ => some tc
  | .observation _ tc _ => some tc
  | _ => none

/-- The ids of the `ObservationBaseEvent`s of a list (proof helper). -/
def obsEventIds (l : List Event) : List EventID :=
  l.filterMap fun e =>
    match e with
    | .observation i _ _ => some i
    | _ => none

/-- An event log whose enforcement cascade needs more than 10 iterations:
four thinking tool loops chained through observations whose matching actions
sit in the next loop, with a condensation forgetting the first action.  Each
stage of the cascade costs three to four iterations (orphan removal, batch
removal, loop removal), so the cap is hit after the tenth removal with the
last loop's cross-link observation gone but its action still present. -/
def bigCascade : List Event :=
  [.action 0 1 1 true,
   .observation 1 1 .tool,
   .observation 2 101 .tool,
   .message 3 0,
   .action 4 2 2 true,
   .action 5 2 101 false,
   .observation 6 2 .tool,
   .observation 7 102 .tool,
   .message 8 0,
   .action 9 3 3 true,
   .action 10 3 102 false,
   .observation 11 3 .tool,
   .observation 12 103 .tool,
   .message 13 0,
   .action 14 4 4 true,
   .action 15 4 103 false,
   .observation 16 4 .tool,
   .condensation 17 [0] none none]

/-- Nine message events with ids 0..8, used by the C4 scenario. -/
def nineMessages : List Event :=
  [.message 0 0, .message 1 1, .message 2 2, .message 3 3, .message 4 4,
   .message 5 5, .message 6 6, .message 7 7, .message 8 8]

/-! ### Helper lemmas -/

theorem absorbBatches_sublist (events : List Event) (loopEnd : Nat)
    (rs : List BatchRange) : (absorbBatches events loopEnd rs).2.Sublist rs := by
  induction rs generalizing loopEnd with
  | nil => simp [absorbBatches]
  | cons r rest ih =>
    simp only [absorbBatches]
    split
    · exact (ih _).trans (List.sublist_cons_self r rest)
    · exact List.Sublist.refl _

theorem Event.not_condensation_of_convertible {e : Event}
    (h : e.isLLMConvertible = true) :
    e.isCondensation = false ∧ e.isCondensationRequest = false := by
  cases e <;> simp_all [Event.isLLMConvertible, Event.isCondensation,
    Event.isCondensationRequest]

theorem Event.id_lt_freshId {e : Event} {events : List Event} (h : e ∈ events) :
    e.id < freshId events := by
  have : e.id ≤ (events.map Event.id).foldr max 0 := by
    induction events with
    | nil => cases h
    | cons a l ih =>
      rcases List.mem_cons.mp h with rfl | hmem
      · exact le_max_of_le_left (le_refl _)
      · exact le_max_of_le_right (ih hmem)
  exact Nat.lt_succ_of_le this

theorem pyInsertPos_le (o : Int) (n : Nat) : pyInsertPos o n ≤ n := by
  unfold pyInsertPos
  split
  · rcases Int.le_total ((n : Int) + o) 0 with h | h
    · simp [Int.toNat_of_nonpos h]
    · omega
  · exact min_le_right _ _

theorem insertIdx_eq_take_cons_drop {α : Type} (l : List α) (x : α) (i : Nat)
    (h : i ≤ l.length) : l.insertIdx i x = l.take i ++ x :: l.drop i := by
  induction l generalizing i with
  | nil =>
    have : i = 0 := Nat.le_zero.mp (by simpa using h)
    subst this
    simp [List.insertIdx]
  | cons a t ih =>
    cases i with
    | zero => simp [List.insertIdx]
    | succ j =>
      simp only [List.insertIdx_succ_cons, List.take_succ_cons, List.drop_succ_cons,
        List.cons_append, List.cons.injEq, true_and]
      exact ih j (by simpa using h)

theorem insertIdx_at_append {α : Type} (l1 l2 : List α) (x : α) :
    (l1 ++ l2).insertIdx l1.length x = l1 ++ x :: l2 := by
  induction l1 with
  | nil => simp [List.insertIdx]
  | cons a t ih => simpa [List.insertIdx_succ_cons] using ih

theorem keptEvents_sublist (events : List Event) :
    (keptEvents events).Sublist events :=
  List.filter_sublist events

theorem mem_keptEvents_convertible {events : List Event} {e : Event}
    (h : e ∈ keptEvents events) : e.isLLMConvertible = true := by
  have := (List.mem_filter.mp h).2
  simp only [Bool.and_eq_true] at this
  exact this.2

theorem mem_keptWithSummary {events : List Event} {e : Event}
    (h : e ∈ keptWithSummary events) :
    e ∈ keptEvents events ∨ e.isCondensationSummary = true := by
  unfold keptWithSummary at h
  rcases hfs : findSummary events with _ | ⟨s, o⟩
  · rw [hfs] at h; exact Or.inl h
  · rw [hfs] at h
    simp only at h
    rcases (List.mem_insertIdx (pyInsertPos_le o _)).mp h with rfl | hmem
    · exact Or.inr rfl
    · exact Or.inl hmem

theorem mem_keptWithSummary_convertible {events : List Event} {e : Event}
    (h : e ∈ keptWithSummary events) : e.isLLMConvertible = true := by
  rcases mem_keptWithSummary h with h | h
  · exact mem_keptEvents_convertible h
  · cases e <;> simp_all [Event.isCondensationSummary, Event.isLLMConvertible]

theorem enforceLoop_sublist (fuel : Nat) (view all : List Event) :
    (enforceLoop fuel view all).Sublist view := by
  induction fuel generalizing view with
  | zero => exact List.Sublist.refl _
  | succ n ih =>
    simp only [enforceLoop]
    split
    · exact List.Sublist.refl _
    · exact (ih _).trans (List.filter_sublist view)

theorem view_events_def (events : List Event) :
    (View.from_events events).events =
      enforceLoop maxIterations (keptWithSummary events) events := rfl

theorem mem_view_events_convertible {events : List Event} {e : Event}
    (h : e ∈ (View.from_events events).events) : e.isLLMConvertible = true :=
  mem_keptWithSummary_convertible
    ((enforceLoop_sublist _ _ _).subset (by simpa [view_events_def] using h))

theorem forgottenIds_eq_foldl (events : List Event) :
    forgottenIds events = events.foldl forgottenStep [] := rfl

theorem mem_foldl_forgottenStep_of_mem {x : EventID} :
    ∀ (l : List Event) (acc : List EventID), x ∈ acc → x ∈ l.foldl forgottenStep acc := by
  intro l
  induction l with
  | nil => intro acc h; simpa using h
  | cons e t ih =>
    intro acc h
    refine ih _ ?_
    cases e <;> simp [forgottenStep, h]

theorem mem_forgottenIds_of_marker {events : List Event} {e : Event}
    (hmem : e ∈ events) (hk : (e.isCondensation || e.isCondensationRequest) = true) :
    e.id ∈ forgottenIds events := by
  rw [forgottenIds_eq_foldl]
  suffices h : ∀ (l : List Event) (acc : List EventID), e ∈ l →
      e.id ∈ l.foldl forgottenStep acc from h events [] hmem
  intro l
  induction l with
  | nil => intro acc h; cases h
  | cons a t ih =>
    intro acc h
    rcases List.mem_cons.mp h with rfl | h
    · refine mem_foldl_forgottenStep_of_mem t _ ?_
      cases e <;> simp_all [forgottenStep, Event.isCondensation,
        Event.isCondensationRequest, Event.id]
    · exact ih _ h

theorem enforceStep_nil_parts {view all : List Event}
    (h : enforceStep view all = []) :
    tcmEnforce view all = [] ∧ batchEnforce view all = [] ∧
      toolLoopEnforce view all = [] := by
  simp only [enforceStep] at h
  split_ifs at h with h1 h2
  · exact absurd h h1
  · exact absurd h h2
  · exact ⟨by simpa using h1, by simpa using h2, h⟩

theorem converged_step_nil {fuel : Nat} {view all : List Event}
    (h : enforceConvergesFuel fuel view all = true) :
    enforceStep (enforceLoop fuel view all) all = [] := by
  induction fuel generalizing view with
  | zero => simp [enforceConvergesFuel] at h
  | succ n ih =>
    simp only [enforceConvergesFuel] at h
    simp only [enforceLoop]
    split_ifs with hc
    · exact hc
    · rw [if_neg hc] at h
      exact ih h

theorem mem_obsToolCallIds {V : List Event} {tc : ToolCallID}
    (h : tc ∈ obsToolCallIds V) :
    ∃ e2 ∈ V, e2.isObservation = true ∧ e2.toolCallIdOf = some tc := by
  rcases List.mem_filterMap.mp h with ⟨a, ha, hf⟩
  cases a <;> simp_all [Event.isObservation, Event.toolCallIdOf]
  exact ⟨_, ha, rfl, rfl⟩

theorem mem_actionToolCallIds {V : List Event} {tc : ToolCallID}
    (h : tc ∈ actionToolCallIds V) :
    ∃ e2 ∈ V, e2.isAction = true ∧ e2.toolCallIdOf = some tc := by
  rcases List.mem_filterMap.mp h with ⟨a, ha, hf⟩
  cases a <;> simp_all [Event.isAction, Event.toolCallIdOf]
  exact ⟨_, ha, rfl, rfl⟩

/-! ### Claim theorems -/

/-- C1 (amended): for every event sequence whose property-enforcement loop
reaches a fixpoint within the 10-iteration cap, every `ActionEvent` in the
events of `View.from_events` has an `ObservationBaseEvent` (which includes
`UserRejectObservation`) with the same `tool_call_id` in the same view, and
every `ObservationBaseEvent` has a matching `ActionEvent`.  The cap
hypothesis is necessary: see the counterexample. -/
theorem tool_call_matching_of_converged (E : List Event)
    (h : enforceConverges E = true) :
    ∀ e ∈ (View.from_events E).events,
      (e.isAction = true →
        ∃ e2 ∈ (View.from_events E).events,
          e2.isObservation = true ∧ e2.toolCallIdOf = e.toolCallIdOf) ∧
      (e.isObservation = true →
        ∃ e2 ∈ (View.from_events E).events,
          e2.isAction = true ∧ e2.toolCallIdOf = e.toolCallIdOf) := by
  have hstep := converged_step_nil (h : enforceConvergesFuel maxIterations
    (keptWithSummary E) E = true)
  have htcm := (enforceStep_nil_parts hstep).1
  rw [view_events_def]
  simp only [tcmEnforce, List.filterMap_eq_nil_iff] at htcm
  intro e he
  constructor
  · rintro ha
    cases e with
    | action i rid tc th =>
      have := htcm _ he
      by_cases hm : tc ∈ obsToolCallIds (enforceLoop maxIterations (keptWithSummary E) E)
      · rcases mem_obsToolCallIds hm with ⟨e2, he2, hobs, htc⟩
        exact ⟨e2, he2, hobs, htc⟩
      · simp [hm] at this
    | _ => simp [Event.isAction] at ha
  · rintro ho
    cases e with
    | observation i tc k =>
      have := htcm _ he
      by_cases hm : tc ∈ actionToolCallIds (enforceLoop maxIterations (keptWithSummary E) E)
      · rcases mem_actionToolCallIds hm with ⟨e2, he2, hact, htc⟩
        exact ⟨e2, he2, hact, htc⟩
      · simp [hm] at this
    | _ => simp [Event.isObservation] at ho

/-- Witness for C1: a two-event log (one action, its observation) converges,
and the theorem instantiates on the action event. -/
theorem tool_call_matching_of_converged_witness :
    ∃ e2 ∈ (View.from_events [.action 0 1 1 false, .observation 1 1 .tool]).events,
      e2.isObservation = true ∧
        e2.toolCallIdOf = (Event.action 0 1 1 false).toolCallIdOf :=
  (tool_call_matching_of_converged [.action 0 1 1 false, .observation 1 1 .tool]
      (by decide) (.action 0 1 1 false) (by decide)).1 (by decide)

/-- Counterexample for C1: an 18-event log whose enforcement cascade needs
more than 10 iterations.  The returned view still contains the action with
`tool_call_id = 103` but no observation with that id, so the matching
invariant fails exactly on a cap-exceeding input. -/
theorem tool_call_matching_cap_counterexample :
    enforceConverges bigCascade = false ∧
      Event.action 15 4 103 false ∈ (View.from_events bigCascade).events ∧
      ∀ e ∈ (View.from_events bigCascade).events,
        ¬(e.isObservation = true ∧ e.toolCallIdOf = some 103) := by
  refine ⟨by decide, by decide, by decide⟩

/-- C2: for every event sequence, the derived view contains no
`Condensation` and no `CondensationRequest` event; moreover each
`Condensation`'s own id and each `CondensationRequest`'s id is in the
forgotten-id set. -/
theorem view_no_condensation_markers (E : List Event) :
    (∀ e ∈ (View.from_events E).events,
        e.isCondensation = false ∧ e.isCondensationRequest = false) ∧
    (∀ e ∈ E, (e.isCondensation || e.isCondensationRequest) = true →
        e.id ∈ forgottenIds E) := by
  constructor
  · intro e he
    exact Event.not_condensation_of_convertible (mem_view_events_convertible he)
  · intro e he hk
    exact mem_forgottenIds_of_marker he hk

/-- Witness for C2 at a concrete log with a condensation and a request. -/
theorem view_no_condensation_markers_witness :
    ((Event.message 0 0).isCondensation = false ∧
      (Event.message 0 0).isCondensationRequest = false) ∧
    (Event.condensation 1 [] none none).id ∈
      forgottenIds [.message 0 0, .condensation 1 [] none none, .condensationRequest 2] ∧
    (Event.condensationRequest 2).id ∈
      forgottenIds [.message 0 0, .condensation 1 [] none none, .condensationRequest 2] :=
  ⟨(view_no_condensation_markers
      [.message 0 0, .condensation 1 [] none none, .condensationRequest 2]).1
      (.message 0 0) (by decide),
   (view_no_condensation_markers
      [.message 0 0, .condensation 1 [] none none, .condensationRequest 2]).2
      (.condensation 1 [] none none) (by decide) (by decide),
   (view_no_condensation_markers
      [.message 0 0, .condensation 1 [] none none, .condensationRequest 2]).2
      (.condensationRequest 2) (by decide) (by decide)⟩

/-- C3 (amended): when `get_condensation` is invoked at request-condense time
on a view for which no valid condensation range exists (fewer than
`keep_first + 2` events), there is no hard-reset branch.  When the
unconditional `view.summary_event` read succeeds, the returned `Condensation`
carries `summary_offset = keep_first` (not 0) and forgets only
`view[keep_first:]` (not all prior events); when that read raises
`IndexError` (an out-of-bounds stored `summary_offset` in the most recent
condensation), `get_condensation` raises instead of returning anything. -/
theorem get_condensation_no_hard_reset (c : LLMSummarizingCondenser) (v : View)
    (s : String) (rid : LLMResponseID)
    (hreq : v.unhandledCondensationRequest = true)
    (hlen : v.events.length < c.keepFirst + 2) :
    (∀ err, v.summaryEventChecked = .error err →
      c.getCondensation v s rid = .error err) ∧
    (∀ r, v.summaryEventChecked = .ok r →
      c.getCondensation v s rid =
        .ok { forgottenEventIds := (v.events.drop c.keepFirst).map Event.id,
              summary := some s, summaryOffset := (c.keepFirst : Int),
              llmResponseId := rid }) := by
  have h2 : v.events.length / 2 ≤ v.events.length := Nat.div_le_self _ _
  have heft : v.events.length / 2 - (v.events.take c.keepFirst).length - 1 = 0 := by
    rw [List.length_take]
    omega
  constructor
  · intro err herr
    simp only [LLMSummarizingCondenser.getCondensation, herr]
  · intro r hok
    simp only [LLMSummarizingCondenser.getCondensation, hok, hreq, if_true, heft]
    simp

/-- Witness for C3 at a two-message view with an unhandled request and
`keep_first = 2`: the summary-event read succeeds (no summary stored) and the
emitted condensation has offset 2 and an empty forgotten slice. -/
theorem get_condensation_no_hard_reset_witness :
    LLMSummarizingCondenser.getCondensation ⟨8, 2⟩
        (View.from_events [.message 0 0, .message 1 1, .condensationRequest 2])
        "sum" 99 =
      .ok { forgottenEventIds :=
              (((View.from_events
                  [.message 0 0, .message 1 1,
                   .condensationRequest 2]).events).drop 2).map Event.id,
            summary := some "sum", summaryOffset := ((2 : Nat) : Int),
            llmResponseId := 99 } :=
  (get_condensation_no_hard_reset ⟨8, 2⟩
    (View.from_events [.message 0 0, .message 1 1, .condensationRequest 2])
    "sum" 99 (by decide) (by decide)).2 none rfl

/-- Counterexample for C3, in two parts.  On a two-message view (ids 0 and 1)
with an unhandled request and `keep_first = 2` — no valid condensation range —
the emitted condensation has `summary_offset = 2`, not 0, and forgets nothing
instead of all prior events.  And on a view whose most recent condensation
stores the out-of-bounds `summary_offset = 5`, `get_condensation` raises
`IndexError` through the unconditional `view.summary_event` read, contradicting
the claim's "instead of raising an error". -/
theorem get_condensation_hard_reset_refuted :
    (LLMSummarizingCondenser.getCondensation ⟨8, 2⟩
        (View.from_events [.message 0 0, .message 1 1, .condensationRequest 2])
        "sum" 99 =
      .ok { forgottenEventIds := [], summary := some "sum", summaryOffset := 2,
            llmResponseId := 99 }) ∧
    (LLMSummarizingCondenser.getCondensation ⟨8, 2⟩
        (View.from_events
          [.message 0 0, .condensation 10 [] (some "S") (some 5),
           .condensationRequest 11])
        "sum" 99 = .error "IndexError") := by
  refine ⟨rfl, rfl⟩

/-- Counterexample for C4: a condenser configured with `max_size = 6` and
`keep_first = 2` cannot be constructed — the
`validate_keep_first_vs_max_size` validator computes
`6 // 2 - 2 - 1 = 0 <= 0` and fails construction. -/
theorem condenser_six_two_rejected :
    mkLLMSummarizingCondenser 6 2 =
      .error "keep_first must be less than max_size // 2 to leave room for condensation" :=
  rfl

/-- C4 (amended): `max_size = 6` with `keep_first = 2` fails validation; the
nearest constructible configuration keeping `keep_first = 2` is
`max_size = 8`, and feeding nine message events then gives
`should_condense = true` and a returned (not raised) condensation with
`summary_offset = 2` and the non-empty `forgotten_event_ids`
`[2, 3, 4, 5, 6, 7]`. -/
theorem condenser_rolling_trigger_scenario :
    mkLLMSummarizingCondenser 8 2 = .ok ⟨8, 2⟩ ∧
    LLMSummarizingCondenser.shouldCondense ⟨8, 2⟩ (View.from_events nineMessages)
      = true ∧
    (LLMSummarizingCondenser.getCondensation ⟨8, 2⟩ (View.from_events nineMessages)
        "sum" 99 =
      .ok { forgottenEventIds := [2, 3, 4, 5, 6, 7], summary := some "sum",
            summaryOffset := 2, llmResponseId := 99 }) ∧
    ([2, 3, 4, 5, 6, 7] : List EventID) ≠ [] := by
  refine ⟨rfl, by decide, rfl, by decide⟩

theorem get?_insertIdx_self {α : Type} (l : List α) (x : α) (i : Nat)
    (h : i ≤ l.length) : (l.insertIdx i x).get? i = some x := by
  rw [insertIdx_eq_take_cons_drop l x i h]
  rw [List.get?_append_right (by simp [List.length_take, Nat.min_eq_left h])]
  simp [List.length_take, Nat.min_eq_left h]

/-- Counterexample for C5: a condensation with `summary_offset = -1` over
three kept messages lands the synthetic summary at index 2 (Python
end-relative insertion), not at index 0. -/
theorem summary_negative_offset_counterexample :
    (View.from_events
        [.message 0 0, .message 1 1, .message 2 2,
         .condensation 10 [] (some "S") (some (-1))]).events =
      [.message 0 0, .message 1 1, .condensationSummary 11 "S", .message 2 2] ∧
    (View.from_events
        [.message 0 0, .message 1 1, .message 2 2,
         .condensation 10 [] (some "S") (some (-1))]).events.get? 0 ≠
      some (Event.condensationSummary 11 "S") := by
  refine ⟨by decide, by decide⟩

/-- C5 (amended): the synthetic `CondensationSummary` is inserted into the
kept list with Python `list.insert` index resolution: an offset `o ≥ 0`
lands at index `min(o, len(kept))` — in particular every offset above
`len(kept)` lands at `len(kept)` — while an offset `o < 0` lands at index
`max(0, len(kept) + o)` (end-relative), reaching index 0 only when
`o ≤ -len(kept)`. -/
theorem summary_insert_position (E : List Event) (s : String) (o : Int)
    (hfs : findSummary E = some (s, o)) :
    (0 ≤ o → (keptWithSummary E).get? (min o.toNat (keptEvents E).length) =
      some (mkSummaryEvent E s)) ∧
    (o < 0 → (keptWithSummary E).get? (((keptEvents E).length : Int) + o).toNat =
      some (mkSummaryEvent E s)) := by
  have hk : keptWithSummary E =
      (keptEvents E).insertIdx (pyInsertPos o (keptEvents E).length)
        (mkSummaryEvent E s) := by
    unfold keptWithSummary
    rw [hfs]
  constructor
  · intro ho
    have hpos : pyInsertPos o (keptEvents E).length =
        min o.toNat (keptEvents E).length := by
      unfold pyInsertPos
      rw [if_neg (by omega)]
    rw [hk, ← hpos]
    exact get?_insertIdx_self _ _ _ (pyInsertPos_le _ _)
  · intro ho
    have hpos : pyInsertPos o (keptEvents E).length =
        (((keptEvents E).length : Int) + o).toNat := by
      unfold pyInsertPos
      rw [if_pos ho]
    rw [hk, ← hpos]
    exact get?_insertIdx_self _ _ _ (pyInsertPos_le _ _)

/-- Witness for C5 at the negative-offset input: the summary lands at index
`3 + (-1) = 2` of the kept list. -/
theorem summary_insert_position_witness :
    (keptWithSummary
        [.message 0 0, .message 1 1, .message 2 2,
         .condensation 10 [] (some "S") (some (-1))]).get?
      (((keptEvents
          [.message 0 0, .message 1 1, .message 2 2,
           .condensation 10 [] (some "S") (some (-1))]).length : Int) + (-1)).toNat =
      some (mkSummaryEvent
        [.message 0 0, .message 1 1, .message 2 2,
         .condensation 10 [] (some "S") (some (-1))] "S") :=
  (summary_insert_position _ "S" (-1) (by decide)).2 (by decide)

theorem pyGetItem_isSome {α : Type} (l : List α) (o : Int)
    (hlo : -(l.length : Int) ≤ o) (hhi : o < (l.length : Int)) :
    ∃ a, pyGetItem l o = some a := by
  simp only [pyGetItem]
  by_cases hneg : o < 0
  · rw [if_pos hneg, if_pos (by constructor <;> omega)]
    have hlt : ((l.length : Int) + o).toNat < l.length := by omega
    exact ⟨_, List.get?_eq_get hlt⟩
  · rw [if_neg hneg, if_pos (by constructor <;> omega)]
    have hlt : o.toNat < l.length := by omega
    exact ⟨_, List.get?_eq_get hlt⟩

/-- Counterexample for C9: a condensation storing `summary_offset = 5` over a
single kept message produces a two-event view (the insertion clamps to the
end), but `summary_event` reads `events[5]` and raises `IndexError`. -/
theorem summary_event_raises_counterexample :
    (View.from_events
        [.message 0 0, .condensation 10 [] (some "S") (some 5)]).events =
      [.message 0 0, .condensationSummary 11 "S"] ∧
    (View.from_events
        [.message 0 0, .condensation 10 [] (some "S") (some 5)]).summaryEventChecked =
      .error "IndexError" :=
  ⟨by decide, rfl⟩

/-- C9 (amended): reading `summary_event` on a derived view does not raise
when there is no stored summary index, nor when the stored index is within
Python bounds (`-len ≤ o < len`); it raises `IndexError` exactly on a stored
index outside those bounds, which does occur because insertion clamps and
enforcement can shrink the view below the most recent condensation's stored
`summary_offset`. -/
theorem summary_event_ok_within_bounds (E : List Event) :
    ((View.from_events E).summaryEventIndex = none →
      (View.from_events E).summaryEventChecked = .ok none) ∧
    (∀ o, (View.from_events E).summaryEventIndex = some o →
      -(((View.from_events E).events.length : Int)) ≤ o →
      o < (((View.from_events E).events.length : Int)) →
      ∃ r, (View.from_events E).summaryEventChecked = .ok r) := by
  constructor
  · intro h
    unfold View.summaryEventChecked
    rw [h]
  · intro o h hlo hhi
    unfold View.summaryEventChecked
    rw [h]
    rcases pyGetItem_isSome (View.from_events E).events o hlo hhi with ⟨a, ha⟩
    simp only [ha]
    exact ⟨_, rfl⟩

/-- Witness for C9: a stored offset of 1 on a three-event view is in bounds,
so the read returns without raising. -/
theorem summary_event_ok_within_bounds_witness :
    ∃ r, (View.from_events
        [.message 0 0, .message 1 1,
         .condensation 10 [] (some "S") (some 1)]).summaryEventChecked = .ok r :=
  (summary_event_ok_within_bounds
      [.message 0 0, .message 1 1, .condensation 10 [] (some "S") (some 1)]).2
    1 (by decide) (by decide) (by decide)

theorem foldl_preserve {α β : Type} {P : β → Prop} :
    ∀ (l : List α) (f : β → α → β) (b : β), P b →
      (∀ a ∈ l, ∀ c, P c → P (f c a)) → P (l.foldl f b) := by
  intro l
  induction l with
  | nil => intro f b hb _; exact hb
  | cons a t ih =>
    intro f b hb hstep
    exact ih f (f b a) (hstep a (List.mem_cons_self a t) b hb)
      fun x hx c hc => hstep x (List.mem_cons_of_mem a hx) c hc

theorem eventIdToIndex_lt {events : List Event} (hne : events ≠ [])
    (eid : EventID) : eventIdToIndex events eid < events.length := by
  unfold eventIdToIndex
  refine foldl_preserve (P := fun b => b < events.length) events.enum _ 0
    (List.length_pos.mpr hne) ?_
  intro p hp c hc
  split
  · exact (List.mem_enum hp).1
  · exact hc

theorem listMax_lt {l : List Nat} {n : Nat} (h : ∀ x ∈ l, x < n) (hn : 0 < n) :
    listMax l < n := by
  induction l with
  | nil => exact hn
  | cons a t ih =>
    have : max a (listMax t) < n :=
      Nat.max_lt.mpr ⟨h a (List.mem_cons_self a t),
        ih fun x hx => h x (List.mem_cons_of_mem a hx)⟩
    simpa [listMax] using this

theorem batchAtomicRanges_snd_lt {v : List Event} (hne : v ≠ []) :
    ∀ r ∈ batchAtomicRanges v, r.2 < v.length := by
  intro r hr
  rcases List.mem_filterMap.mp hr with ⟨rid, _, hf⟩
  dsimp only at hf
  by_cases hlen : (batchActionIds rid v).length > 1
  · rw [if_pos hlen] at hf
    obtain rfl := Option.some.inj hf
    exact listMax_lt
      (by
        intro x hx
        rcases List.mem_map.mp hx with ⟨aid, _, rfl⟩
        exact eventIdToIndex_lt hne aid)
      (List.length_pos.mpr hne)
  · rw [if_neg hlen] at hf
    cases hf

theorem mem_insertByMin {x y : BatchRange} {l : List BatchRange} :
    x ∈ insertByMin y l ↔ x = y ∨ x ∈ l := by
  induction l with
  | nil => simp [insertByMin]
  | cons a t ih =>
    simp only [insertByMin]
    split
    · simp
    · simp only [List.mem_cons, ih]
      tauto

theorem mem_sortByMin {x : BatchRange} {l : List BatchRange} :
    x ∈ sortByMin l ↔ x ∈ l := by
  induction l with
  | nil => simp [sortByMin]
  | cons a t ih =>
    simp only [sortByMin, List.foldr_cons] at ih ⊢
    rw [mem_insertByMin, ih, List.mem_cons]

theorem buildBatchRanges_maxIdx_lt {v : List Event} (hne : v ≠ []) :
    ∀ r ∈ buildBatchRanges v, r.maxIdx < v.length := by
  intro r hr
  rcases List.mem_map.mp (mem_sortByMin.mp hr) with ⟨rid, _, rfl⟩
  exact listMax_lt
    (by
      intro x hx
      rcases List.mem_map.mp hx with ⟨aid, _, rfl⟩
      exact eventIdToIndex_lt hne aid)
    (List.length_pos.mpr hne)

theorem absorbBatches_fst_lt {events : List Event} {n : Nat} :
    ∀ {rs : List BatchRange} {le : Nat}, (∀ r ∈ rs, r.maxIdx < n) → le < n →
      (absorbBatches events le rs).1 < n := by
  intro rs
  induction rs with
  | nil => intro le _ hle; exact hle
  | cons r rest ih =>
    intro le hr hle
    simp only [absorbBatches]
    split
    · exact ih (fun x hx => hr x (List.mem_cons_of_mem r hx))
        (hr r (List.mem_cons_self r rest))
    · exact hle

theorem extendObsAux_lt {events : List Event} :
    ∀ {fuel le : Nat}, le < events.length →
      extendObsAux events fuel le < events.length := by
  intro fuel
  induction fuel with
  | zero => intro le hle; exact hle
  | succ n ih =>
    intro le hle
    cases hg : events.get? (le + 1) with
    | none => simp only [extendObsAux, hg]; exact hle
    | some e =>
      simp only [extendObsAux, hg]
      split
      · exact ih (List.get?_eq_some.mp hg).1
      · exact hle

theorem identifyLoopsAux_snd_lt {events : List Event} :
    ∀ {fuel : Nat} {rs : List BatchRange},
      (∀ r ∈ rs, r.maxIdx < events.length) →
      ∀ q ∈ identifyLoopsAux events fuel rs, q.2 < events.length := by
  intro fuel
  induction fuel with
  | zero =>
    intro rs _ q hq
    cases rs <;> simp [identifyLoopsAux] at hq
  | succ n ih =>
    intro rs hr q hq
    cases rs with
    | nil => simp [identifyLoopsAux] at hq
    | cons r rest =>
      simp only [identifyLoopsAux] at hq
      split at hq
      · rcases List.mem_cons.mp hq with rfl | hq
        · exact extendObsAux_lt
            (absorbBatches_fst_lt
              (fun x hx => hr x (List.mem_cons_of_mem r hx))
              (hr r (List.mem_cons_self r rest)))
        · refine ih ?_ q hq
          intro x hx
          exact hr x (List.mem_cons_of_mem r
            ((absorbBatches_sublist events r.maxIdx rest).subset hx))
      · exact ih (fun x hx => hr x (List.mem_cons_of_mem r hx)) q hq

theorem identifyLoopRanges_snd_lt {v : List Event} (hne : v ≠ []) :
    ∀ q ∈ identifyLoopRanges v, q.2 < v.length :=
  identifyLoopsAux_snd_lt (buildBatchRanges_maxIdx_lt hne)

theorem mem_manipFromAtomicRanges_boundary {ranges : List (Nat × Nat)} {n : Nat}
    (hr : ∀ r ∈ ranges, r.2 < n) :
    0 ∈ manipFromAtomicRanges ranges n ∧ n ∈ manipFromAtomicRanges ranges n := by
  constructor
  · rw [manipFromAtomicRanges, Finset.mem_filter]
    refine ⟨Finset.mem_range.mpr (Nat.succ_pos n), ?_⟩
    simp only [List.all_eq_true]
    intro r _
    simp
  · rw [manipFromAtomicRanges, Finset.mem_filter]
    refine ⟨Finset.mem_range.mpr (Nat.lt_succ_self n), ?_⟩
    simp only [List.all_eq_true]
    intro r hrm
    have := hr r hrm
    simp only [Bool.not_eq_true', Bool.and_eq_false_iff, decide_eq_false_iff_not]
    right
    omega

theorem view_manip_def (E : List Event) :
    (View.from_events E).manipulationIndices =
      (if (View.from_events E).events = [] then {0}
       else tcmManip (View.from_events E).events ∩
            batchManip (View.from_events E).events ∩
            loopManip (View.from_events E).events) := rfl

/-- C6: for every event sequence, if the derived view is non-empty then both
0 and `len(events)` are members of its `manipulation_indices` (the
intersection of the three enforcers' admissible index sets), and if the view
is empty the set is exactly `{0}`. -/
theorem manipulation_indices_boundaries (E : List Event) :
    ((View.from_events E).events ≠ [] →
      0 ∈ (View.from_events E).manipulationIndices ∧
      (View.from_events E).events.length ∈ (View.from_events E).manipulationIndices) ∧
    ((View.from_events E).events = [] →
      (View.from_events E).manipulationIndices = {0}) := by
  constructor
  · intro hne
    set V := (View.from_events E).events with hV
    have hmi : (View.from_events E).manipulationIndices =
        tcmManip V ∩ batchManip V ∩ loopManip V := by
      rw [view_manip_def, if_neg hne]
    have hbatch := mem_manipFromAtomicRanges_boundary
      (n := V.length) (batchAtomicRanges_snd_lt hne)
    have hloop := mem_manipFromAtomicRanges_boundary
      (n := V.length) (identifyLoopRanges_snd_lt hne)
    have htcm0 : 0 ∈ tcmManip V := Finset.mem_range.mpr (Nat.succ_pos _)
    have htcmn : V.length ∈ tcmManip V := Finset.mem_range.mpr (Nat.lt_succ_self _)
    rw [hmi]
    exact ⟨Finset.mem_inter.mpr ⟨Finset.mem_inter.mpr ⟨htcm0, hbatch.1⟩, hloop.1⟩,
      Finset.mem_inter.mpr ⟨Finset.mem_inter.mpr ⟨htcmn, hbatch.2⟩, hloop.2⟩⟩
  · intro he
    rw [view_manip_def, if_pos he]

/-- Witness for C6 at the cascade log: its view has six events and the
boundaries 0 and 6 are admissible. -/
theorem manipulation_indices_boundaries_witness :
    0 ∈ (View.from_events bigCascade).manipulationIndices ∧
    (View.from_events bigCascade).events.length ∈
      (View.from_events bigCascade).manipulationIndices :=
  (manipulation_indices_boundaries bigCascade).1 (by decide)

theorem sublist_insertIdx_decomp {α : Type} {R l : List α} {x : α} {i : Nat}
    (hi : i ≤ l.length) (h : R.Sublist (l.insertIdx i x)) :
    ∃ core : List α, core.Sublist l ∧
      (R = core ∨ ∃ j, j ≤ core.length ∧ R = core.insertIdx j x) := by
  rw [insertIdx_eq_take_cons_drop l x i hi] at h
  rcases List.sublist_append_iff.mp h with ⟨l1, l2, rfl, h1, h2⟩
  rcases List.sublist_cons_iff.mp h2 with h2d | ⟨t, rfl, h2d⟩
  · exact ⟨l1 ++ l2, by
      have := List.Sublist.append h1 h2d
      rwa [List.take_append_drop] at this, Or.inl rfl⟩
  · refine ⟨l1 ++ t, by
      have := List.Sublist.append h1 h2d
      rwa [List.take_append_drop] at this, Or.inr ⟨l1.length, ?_, ?_⟩⟩
    · simp
    · rw [insertIdx_at_append]

theorem mkSummaryEvent_not_mem_kept {E : List Event} {s : String} :
    mkSummaryEvent E s ∉ keptEvents E := by
  intro hmem
  have hE : mkSummaryEvent E s ∈ E := (keptEvents_sublist E).subset hmem
  have := Event.id_lt_freshId hE
  simp [mkSummaryEvent, Event.id] at this

theorem keptWithSummary_nodup {E : List Event} (h : E.Nodup) :
    (keptWithSummary E).Nodup := by
  have hkept : (keptEvents E).Nodup := (keptEvents_sublist E).nodup h
  unfold keptWithSummary
  rcases hfs : findSummary E with _ | ⟨s, o⟩
  · exact hkept
  · simp only
    rw [insertIdx_eq_take_cons_drop _ _ _ (pyInsertPos_le o _)]
    refine (List.perm_middle.nodup_iff).mpr ?_
    rw [List.nodup_cons, List.take_append_drop]
    exact ⟨mkSummaryEvent_not_mem_kept, hkept⟩

/-- C8: the events of a derived view, after removing the single synthetic
`CondensationSummary` when one was inserted, form a subsequence of the input
log: derivation only filters and inserts the one summary, never reorders or
duplicates.  When the input log has no duplicate events, neither does the
view. -/
theorem view_events_subsequence (E : List Event) :
    (∃ core : List Event, core.Sublist E ∧
      ((View.from_events E).events = core ∨
        ∃ i ev, i ≤ core.length ∧ ev.isCondensationSummary = true ∧
          (View.from_events E).events = core.insertIdx i ev)) ∧
    (E.Nodup → (View.from_events E).events.Nodup) := by
  have hsub : (View.from_events E).events.Sublist (keptWithSummary E) := by
    rw [view_events_def]
    exact enforceLoop_sublist _ _ _
  constructor
  · rcases hfs : findSummary E with _ | ⟨s, o⟩
    · refine ⟨(View.from_events E).events, ?_, Or.inl rfl⟩
      have : (View.from_events E).events.Sublist (keptEvents E) := by
        unfold keptWithSummary at hsub
        rwa [hfs] at hsub
      exact this.trans (keptEvents_sublist E)
    · have hkws : keptWithSummary E =
          (keptEvents E).insertIdx (pyInsertPos o (keptEvents E).length)
            (mkSummaryEvent E s) := by
        unfold keptWithSummary
        rw [hfs]
      rw [hkws] at hsub
      rcases sublist_insertIdx_decomp (pyInsertPos_le o _) hsub with
        ⟨core, hcore, hdec⟩
      refine ⟨core, hcore.trans (keptEvents_sublist E), ?_⟩
      rcases hdec with h | ⟨j, hj, hins⟩
      · exact Or.inl h
      · exact Or.inr ⟨j, mkSummaryEvent E s, hj, rfl, hins⟩
  · intro hnd
    exact hsub.nodup (keptWithSummary_nodup hnd)

/-- Witness for C8 at the summary-insertion log: the Nodup hypothesis is
discharged concretely, and the subsequence decomposition is instantiated. -/
theorem view_events_subsequence_witness :
    (∃ core : List Event,
      core.Sublist [.message 0 0, .message 1 1,
        .condensation 10 [] (some "S") (some 1)] ∧
      ((View.from_events [.message 0 0, .message 1 1,
          .condensation 10 [] (some "S") (some 1)]).events = core ∨
        ∃ i ev, i ≤ core.length ∧ ev.isCondensationSummary = true ∧
          (View.from_events [.message 0 0, .message 1 1,
            .condensation 10 [] (some "S") (some 1)]).events = core.insertIdx i ev)) ∧
    (View.from_events [.message 0 0, .message 1 1,
      .condensation 10 [] (some "S") (some 1)]).events.Nodup :=
  ⟨(view_events_subsequence _).1,
   (view_events_subsequence
      [.message 0 0, .message 1 1, .condensation 10 [] (some "S") (some 1)]).2
      (by decide)⟩

theorem forgottenIds_nil {l : List Event}
    (h : ∀ e ∈ l, e.isCondensation = false ∧ e.isCondensationRequest = false) :
    forgottenIds l = [] := by
  rw [forgottenIds_eq_foldl]
  refine foldl_preserve (P := fun b => b = []) l _ [] rfl ?_
  intro a ha c hc
  rcases h a ha with ⟨h1, h2⟩
  cases a <;> simp_all [forgottenStep, Event.isCondensation, Event.isCondensationRequest]

theorem findSummaryRev_none {l : List Event}
    (h : ∀ e ∈ l, e.isCondensation = false) : findSummaryRev l = none := by
  induction l with
  | nil => rfl
  | cons a t ih =>
    have ha := h a (List.mem_cons_self a t)
    have ht := fun e he => h e (List.mem_cons_of_mem a he)
    cases a <;> simp_all [findSummaryRev, Event.isCondensation]

theorem findSummary_none {l : List Event}
    (h : ∀ e ∈ l, e.isCondensation = false) : findSummary l = none :=
  findSummaryRev_none fun e he => h e (List.mem_reverse.mp he)

theorem filterMap_filter_eq_of_none {α β : Type} {p : α → Bool} {f : α → Option β}
    (hp : ∀ a, p a = false → f a = none) :
    ∀ l : List α, List.filterMap f (List.filter p l) = List.filterMap f l := by
  intro l
  induction l with
  | nil => rfl
  | cons a t ih =>
    by_cases hpa : p a = true
    · rw [List.filter_cons_of_pos hpa, List.filterMap_cons, List.filterMap_cons, ih]
    · rw [List.filter_cons_of_neg (by simpa using hpa), List.filterMap_cons,
        hp a (by simpa using hpa), ih]

theorem actionToolCallIds_strip_summaries (V : List Event) :
    actionToolCallIds (V.filter fun e => !e.isCondensationSummary) =
      actionToolCallIds V :=
  filterMap_filter_eq_of_none
    (by intro a ha; cases a <;> simp_all [Event.isCondensationSummary]) V

theorem obsToolCallIds_strip_summaries (V : List Event) :
    obsToolCallIds (V.filter fun e => !e.isCondensationSummary) =
      obsToolCallIds V :=
  filterMap_filter_eq_of_none
    (by intro a ha; cases a <;> simp_all [Event.isCondensationSummary]) V

theorem tcmEnforce_strip_summaries {V all all2 : List Event}
    (h : tcmEnforce V all = []) :
    tcmEnforce (V.filter fun e => !e.isCondensationSummary) all2 = [] := by
  simp only [tcmEnforce, List.filterMap_eq_nil_iff] at h ⊢
  rw [actionToolCallIds_strip_summaries, obsToolCallIds_strip_summaries]
  intro a ha
  exact h a (List.mem_filter.mp ha).1

theorem batchEnforce_self (V : List Event) : batchEnforce V V = [] := by
  rw [batchEnforce, List.flatMap_eq_nil_iff]
  intro rid _
  simp

theorem mem_loopEventIds_mem_map {V : List Event} {r : Nat × Nat} {x : EventID}
    (h : x ∈ loopEventIds V r) : x ∈ V.map Event.id := by
  rcases List.mem_map.mp h with ⟨e, he, rfl⟩
  exact List.mem_map_of_mem Event.id (List.get?_mem (List.mem_filterMap.mp he).choose_spec.2)

theorem toolLoopEnforce_self (V : List Event) : toolLoopEnforce V V = [] := by
  simp only [toolLoopEnforce, List.flatMap_eq_nil_iff]
  intro r _
  have hall : (loopEventIds V r).filter (fun i => decide (i ∈ V.map Event.id)) =
      loopEventIds V r :=
    List.filter_eq_self.mpr fun a ha => by
      simpa using mem_loopEventIds_mem_map ha
  rw [hall, if_neg]
  rintro ⟨-, hlt⟩
  exact lt_irrefl _ hlt

theorem enforceStep_nil_of_parts {view all : List Event}
    (h1 : tcmEnforce view all = []) (h2 : batchEnforce view all = [])
    (h3 : toolLoopEnforce view all = []) : enforceStep view all = [] := by
  simp [enforceStep, h1, h2, h3]

theorem enforceLoop_of_step_nil {view all : List Event}
    (h : enforceStep view all = []) : ∀ n, enforceLoop n view all = view := by
  intro n
  cases n with
  | zero => rfl
  | succ m => simp [enforceLoop, h]

theorem enforceLoop_succ_of_step_ne {view all : List Event}
    (h : enforceStep view all ≠ []) (n : Nat) :
    enforceLoop (n + 1) view all =
      enforceLoop n (view.filter fun e => !decide (e.id ∈ enforceStep view all))
        all := by
  simp only [enforceLoop]
  rw [if_neg h]

/-- C7 (amended): provided derivation of `E` reaches its enforcement fixpoint
within the 10-iteration cap, feeding the events of `View.from_events E` back
as a log with the synthetic `CondensationSummary` excluded yields a view with
exactly those events (rederivation removes nothing further).  The full views
are not equal in general: the `condensations` list and the
`unhandled_condensation_request` flag are recomputed from the filtered log,
which contains no condensation markers — see the counterexample. -/
theorem rederive_view_events (E : List Event) (h : enforceConverges E = true) :
    (View.from_events (((View.from_events E).events).filter
        fun e => !e.isCondensationSummary)).events =
      ((View.from_events E).events).filter fun e => !e.isCondensationSummary := by
  set V := (View.from_events E).events with hV
  set E2 := V.filter (fun e => !e.isCondensationSummary) with hE2
  have hmem : ∀ e ∈ E2, e ∈ V := fun e he => (List.mem_filter.mp he).1
  have hconv : ∀ e ∈ E2, e.isLLMConvertible = true := fun e he =>
    mem_view_events_convertible (hV ▸ hmem e he)
  have hmark : ∀ e ∈ E2, e.isCondensation = false ∧ e.isCondensationRequest = false :=
    fun e he => Event.not_condensation_of_convertible (hconv e he)
  have hforg : forgottenIds E2 = [] := forgottenIds_nil hmark
  have hkept : keptEvents E2 = E2 := by
    rw [keptEvents, List.filter_eq_self]
    intro a ha
    rw [hforg]
    simp [hconv a ha]
  have hfs : findSummary E2 = none := findSummary_none fun e he => (hmark e he).1
  have hkws : keptWithSummary E2 = E2 := by
    unfold keptWithSummary
    rw [hfs, hkept]
  have htcmV : tcmEnforce V E = [] := by
    have hstep := converged_step_nil (h : enforceConvergesFuel maxIterations
      (keptWithSummary E) E = true)
    exact (enforceStep_nil_parts hstep).1
  have hstep2 : enforceStep E2 E2 = [] :=
    enforceStep_nil_of_parts (tcmEnforce_strip_summaries htcmV)
      (batchEnforce_self E2) (toolLoopEnforce_self E2)
  calc (View.from_events E2).events
      = enforceLoop maxIterations (keptWithSummary E2) E2 := view_events_def E2
    _ = enforceLoop maxIterations E2 E2 := by rw [hkws]
    _ = E2 := enforceLoop_of_step_nil hstep2 _

/-- Witness for C7 at a converging log with a summary: the stripped feed-back
reproduces its own events. -/
theorem rederive_view_events_witness :
    (View.from_events (((View.from_events
        [.message 0 0, .message 1 1,
         .condensation 10 [] (some "S") (some 1)]).events).filter
        fun e => !e.isCondensationSummary)).events =
      ((View.from_events
        [.message 0 0, .message 1 1,
         .condensation 10 [] (some "S") (some 1)]).events).filter
        fun e => !e.isCondensationSummary :=
  rederive_view_events
    [.message 0 0, .message 1 1, .condensation 10 [] (some "S") (some 1)]
    (by decide)

/-- Counterexample for C7: rederiving from the events of a view (synthetic
summary excluded) does not reproduce the same view — the summary is not
re-inserted and the condensations list is lost. -/
theorem rederive_not_same_view :
    View.from_events
        (((View.from_events
            [.message 0 0, .condensation 10 [] (some "S") (some 0)]).events).filter
          fun e => !e.isCondensationSummary) ≠
      View.from_events [.message 0 0, .condensation 10 [] (some "S") (some 0)] := by
  decide

theorem batchRespIds_nil {E : List Event}
    (hact : ∀ e ∈ E, e.isAction = false) : batchRespIds E = [] := by
  refine foldl_preserve (P := fun b => b = []) E _ [] rfl ?_
  intro a ha c hc
  have hfa := hact a ha
  cases a <;> simp_all [Event.isAction]

theorem legacyBatchAtomicity_no_actions {E : List Event} {f : List EventID}
    (hbr : batchRespIds E = []) : legacyBatchAtomicity E f = f := by
  unfold legacyBatchAtomicity
  rw [hbr]
  simp

theorem legacyThinkingPreservation_no_actions {E : List Event} {f : List EventID}
    (hact : ∀ e ∈ E, e.isAction = false) :
    legacyThinkingPreservation E f = f := by
  have hka : E.filter (fun e => e.isAction && !decide (e.id ∈ f)) = [] :=
    List.filter_eq_nil_iff.mpr fun a ha => by simp [hact a ha]
  unfold legacyThinkingPreservation
  rw [hka]
  simp

theorem identifyLoopRanges_nil {E : List Event}
    (hbr : batchRespIds E = []) : identifyLoopRanges E = [] := by
  unfold identifyLoopRanges buildBatchRanges
  rw [hbr]
  rfl

theorem toolLoopEnforce_nil_ranges {v all : List Event}
    (h : identifyLoopRanges all = []) : toolLoopEnforce v all = [] := by
  simp [toolLoopEnforce, h]

theorem batchEnforce_nil_rids {v all : List Event}
    (h : batchRespIds all = []) : batchEnforce v all = [] := by
  simp [batchEnforce, h]

theorem actionToolCallIds_nil {l : List Event}
    (hna : ∀ e ∈ l, e.isAction = false) : actionToolCallIds l = [] := by
  refine List.filterMap_eq_nil_iff.mpr fun a ha => ?_
  have hfa := hna a ha
  cases a <;> simp_all [Event.isAction]

theorem keptWithSummary_no_actions {E : List Event}
    (hact : ∀ e ∈ E, e.isAction = false) :
    ∀ e ∈ keptWithSummary E, e.isAction = false := by
  intro e he
  rcases mem_keptWithSummary he with h | h
  · exact hact e ((keptEvents_sublist E).subset h)
  · cases e <;> simp_all [Event.isCondensationSummary, Event.isAction]

theorem tcmEnforce_no_actions {kws all : List Event}
    (hna : ∀ e ∈ kws, e.isAction = false) :
    tcmEnforce kws all = obsEventIds kws := by
  simp only [tcmEnforce, obsEventIds]
  refine List.filterMap_congr fun a ha => ?_
  cases a with
  | action i rid tc th => exact absurd (hna _ ha) (by simp [Event.isAction])
  | observation i tc k => simp [actionToolCallIds_nil hna]
  | _ => rfl

theorem mem_obsEventIds_of_obs {l : List Event} {e : Event} (he : e ∈ l)
    (hobs : e.isObservation = true) : e.id ∈ obsEventIds l := by
  refine List.mem_filterMap.mpr ⟨e, he, ?_⟩
  cases e <;> simp_all [Event.isObservation, Event.id]

theorem of_mem_obsEventIds {l : List Event} {x : EventID}
    (h : x ∈ obsEventIds l) :
    ∃ e ∈ l, e.isObservation = true ∧ e.id = x := by
  rcases List.mem_filterMap.mp h with ⟨e, he, hf⟩
  cases e <;> simp_all [Event.isObservation, Event.id]
  exact ⟨_, he, rfl, rfl⟩

theorem insertIdx_perm_cons {α : Type} (l : List α) (x : α) (i : Nat)
    (h : i ≤ l.length) : (l.insertIdx i x).Perm (x :: l) := by
  rw [insertIdx_eq_take_cons_drop l x i h]
  have := @List.perm_middle _ x (l.take i) (l.drop i)
  rwa [List.take_append_drop] at this

theorem keptWithSummary_map_id_nodup {E : List Event}
    (h : (E.map Event.id).Nodup) :
    ((keptWithSummary E).map Event.id).Nodup := by
  have hkept : ((keptEvents E).map Event.id).Nodup :=
    (((keptEvents_sublist E)).map Event.id).nodup h
  unfold keptWithSummary
  rcases hfs : findSummary E with _ | ⟨s, o⟩
  · exact hkept
  · simp only
    have hperm := (insertIdx_perm_cons (keptEvents E) (mkSummaryEvent E s)
      (pyInsertPos o (keptEvents E).length) (pyInsertPos_le o _)).map Event.id
    refine hperm.nodup_iff.mpr ?_
    rw [List.map_cons, List.nodup_cons]
    refine ⟨?_, hkept⟩
    intro hmem
    rcases List.mem_map.mp hmem with ⟨e, he, hid⟩
    have hlt : e.id < freshId E :=
      Event.id_lt_freshId ((keptEvents_sublist E).subset he)
    rw [show Event.id (mkSummaryEvent E s) = freshId E from rfl] at hid
    exact absurd hid (Nat.ne_of_lt hlt)

/-- Counterexample for C10: a log with a forgotten thinking batch.  The
legacy implementation un-forgets the batch (thinking-block preservation) and
keeps all four tool events; the enforcer-based implementation removes the
whole tool loop, leaving an empty view. -/
theorem legacy_enforcer_divergence :
    legacyViewEvents
        [.action 0 1 1 true, .observation 1 1 .tool,
         .action 2 2 2 false, .observation 3 2 .tool,
         .condensation 4 [0, 1] none none] =
      [.action 0 1 1 true, .observation 1 1 .tool,
       .action 2 2 2 false, .observation 3 2 .tool] ∧
    (View.from_events
        [.action 0 1 1 true, .observation 1 1 .tool,
         .action 2 2 2 false, .observation 3 2 .tool,
         .condensation 4 [0, 1] none none]).events = [] := by
  refine ⟨by decide, by decide⟩

/-- C10 (amended): the legacy and the enforcer-based `View.from_events`
agree on event sequences that contain no `ActionEvent` (and have pairwise
distinct event ids, as uuids guarantee): both reduce to dropping every
unmatched observation.  On sequences with partially forgotten batches or
forgotten thinking blocks they diverge — the legacy one-shot pipeline can
keep batch remainders or un-forget a thinking batch, while the enforcer
fixpoint removes the cascading sets (see the counterexample). -/
theorem legacy_enforcer_agree_no_actions (E : List Event)
    (hact : ∀ e ∈ E, e.isAction = false)
    (hids : (E.map Event.id).Nodup) :
    legacyViewEvents E = (View.from_events E).events := by
  have hbr := batchRespIds_nil hact
  have hna := keptWithSummary_no_actions hact
  set kws := keptWithSummary E with hkwsdef
  -- Legacy side: reduces to dropping the observations from the kept list.
  have hlegacy : legacyViewEvents E = kws.filter fun e => !e.isObservation := by
    have h2 : legacyBatchAtomicity E (forgottenIds E) = forgottenIds E :=
      legacyBatchAtomicity_no_actions hbr
    have h3 : legacyThinkingPreservation E (forgottenIds E) = forgottenIds E :=
      legacyThinkingPreservation_no_actions hact
    have hstep : legacyViewEvents E = legacyFilterUnmatched kws := by
      unfold legacyViewEvents
      rw [h2, h3]
      rfl
    rw [hstep]
    unfold legacyFilterUnmatched
    rw [actionToolCallIds_nil hna]
    refine List.filter_congr fun e he => ?_
    cases e with
    | action i rid tc th => exact absurd (hna _ he) (by simp [Event.isAction])
    | observation i tc k => simp [legacyShouldKeep, Event.isObservation]
    | _ => simp [legacyShouldKeep, Event.isObservation]
  rw [hlegacy, view_events_def]
  have htcm : tcmEnforce kws E = obsEventIds kws := tcmEnforce_no_actions hna
  have hbatch : batchEnforce kws E = [] := batchEnforce_nil_rids hbr
  have hloopranges := identifyLoopRanges_nil hbr
  by_cases hobs : obsEventIds kws = []
  · -- No observations either: the first pass removes nothing.
    have hstep : enforceStep kws E = [] :=
      enforceStep_nil_of_parts (htcm.trans hobs) hbatch
        (toolLoopEnforce_nil_ranges hloopranges)
    rw [enforceLoop_of_step_nil hstep]
    refine List.filter_eq_self.mpr fun e he => ?_
    cases he2 : e.isObservation
    · simp
    · exact absurd (hobs ▸ mem_obsEventIds_of_obs he he2) (List.not_mem_nil _)
  · -- One pass drops exactly the observations; the next pass is clean.
    have hstepeq : enforceStep kws E = obsEventIds kws := by
      simp only [enforceStep]
      rw [if_pos (by rw [htcm]; exact hobs)]
      exact htcm
    have hstepne : enforceStep kws E ≠ [] := by
      rw [hstepeq]
      exact hobs
    have hfilter : (kws.filter fun e => !decide (e.id ∈ enforceStep kws E)) =
        kws.filter fun e => !e.isObservation := by
      rw [hstepeq]
      refine List.filter_congr fun e he => ?_
      congr 1
      cases he2 : e.isObservation
      · simp only [decide_eq_false_iff_not]
        intro hmem
        rcases of_mem_obsEventIds hmem with ⟨e2, he2m, hobs2, hid⟩
        have heq := List.inj_on_of_nodup_map (keptWithSummary_map_id_nodup hids)
          he2m he hid
        rw [heq] at hobs2
        simp [he2] at hobs2
      · exact decide_eq_true (mem_obsEventIds_of_obs he he2)
    have hV2 : ∀ e ∈ (kws.filter fun e => !e.isObservation),
        e.isAction = false ∧ e.isObservation = false := by
      intro e he
      rcases List.mem_filter.mp he with ⟨hm, hno⟩
      exact ⟨hna e hm, by simpa using hno⟩
    have hstep2 : enforceStep (kws.filter fun e => !e.isObservation) E = [] := by
      refine enforceStep_nil_of_parts ?_ (batchEnforce_nil_rids hbr)
        (toolLoopEnforce_nil_ranges hloopranges)
      refine List.filterMap_eq_nil_iff.mpr fun a ha => ?_
      rcases hV2 a ha with ⟨ha1, ha2⟩
      cases a <;> simp_all [Event.isAction, Event.isObservation]
    have hmax : maxIterations = 9 + 1 := rfl
    rw [hmax, enforceLoop_succ_of_step_ne hstepne, hfilter,
      enforceLoop_of_step_nil hstep2]

set_option maxHeartbeats 1000000 in
/-- Witness for C10 at an action-free log with an unmatched observation:
both implementations drop it. -/
theorem legacy_enforcer_agree_no_actions_witness :
    legacyViewEvents [.message 0 0, .observation 1 5 .tool, .condensationRequest 2] =
      (View.from_events
        [.message 0 0, .observation 1 5 .tool, .condensationRequest 2]).events :=
  legacy_enforcer_agree_no_actions
    [.message 0 0, .observation 1 5 .tool, .condensationRequest 2]
    (by decide) (by decide)

end Engine

